import Mathlib

/-!
Shallow embedding of the `npm-why-slow` analysis pipeline.

Sources embedded:
- `src/types/index.ts` (data model),
- `src/database/slow-packages.ts` (knowledge base),
- `src/analyzers/heuristics.ts` (manifest analyzer, suggestion ranker),
- node-modules scanner (`analyzeNodeModules`, `getNodeModulesStats`),
- `src/analyzers/lockfile.ts` (yarn.lock analyzer, dispatch results),
- `src/analyzers/measure.ts` (shape of measurement results),
- `src/cli/index.ts` (deep-scan merge, measurement refinement, pipeline).

Modelling conventions:
- Filesystem reads are replaced by their parsed values: the manifest analyzer
  takes the parsed `package.json` groups, the node-modules scanner takes the
  list of scanned package directories (name/version/size/flags), the yarn
  analyzer takes the raw file content, and the measurement probe's results
  are taken as inputs (the probe itself spawns processes and is out of scope).
- TypeScript optional fields become `Option`; every `PackageAnalysis` the
  program constructs carries a numeric `estimatedTime`, so that field is a
  plain `Nat` (the `|| 0` defaults in the source never fire on constructed
  records).  Times are naturals: every heuristic estimate in the program is
  an integer number of seconds.
- JavaScript object spread (`{...a, ...b}`) is modelled by ordered
  association lists with JS semantics: an existing key keeps its position
  and takes the new value, a fresh key is appended.
- `Array.prototype.sort` with a numeric comparator is stable (ES2019); it is
  modelled by a stable insertion sort parameterised by the comparator's
  strict "must come first" relation.
-/

/-- `SlowReason` from `src/types/index.ts`. -/
inductive SlowReason where
  | postinstall
  | binaryDownload
  | nativeCompilation
  | largeDeps
  | measured
deriving DecidableEq, Repr

/-- Suggestion `type` field from `src/types/index.ts`. -/
inductive SuggestionType where
  | replace
  | remove
  | optimize
deriving DecidableEq, Repr

/-- Suggestion `priority` field from `src/types/index.ts`. -/
inductive Priority where
  | high
  | medium
  | low
deriving DecidableEq, Repr

/-- `SlowPackageInfo` from `src/types/index.ts`: a knowledge-base entry. -/
structure SlowPackageInfo where
  name : String
  reason : SlowReason
  estimatedTime : Nat
  alternative : Option String := none
  note : Option String := none
deriving DecidableEq, Repr

/-- `PackageAnalysis` from `src/types/index.ts`: one per-package record. -/
structure PackageAnalysis where
  name : String
  version : Option String
  isSlowPackage : Bool
  estimatedTime : Nat
  reason : Option SlowReason
  alternative : Option String
  note : Option String
  hasPostinstall : Option Bool
deriving DecidableEq, Repr

/-- `Suggestion` from `src/types/index.ts`. -/
structure Suggestion where
  type : SuggestionType
  packageName : String
  currentTime : Nat
  suggestion : String
  potentialSavings : Nat
  priority : Priority
deriving DecidableEq, Repr

/-- The extended `nodeModulesStats` data attached in deep-scan mode
(the value produced by `getNodeModulesStats`). -/
structure NodeModulesStats where
  totalPackages : Nat
  totalSize : Nat
  largestPackages : List (String × Nat)
deriving DecidableEq, Repr

/-- The extended `lockfileStats` data attached in deep-scan mode. -/
structure LockfileStats where
  lockfileType : String
  totalDeps : Nat
  installScriptCount : Nat
deriving DecidableEq, Repr

/-- `AnalysisResult` from `src/types/index.ts`. -/
structure AnalysisResult where
  totalPackages : Nat
  slowPackages : List PackageAnalysis
  estimatedTotalTime : Nat
  potentialSavings : Nat
  suggestions : List Suggestion
  nodeModulesStats : Option NodeModulesStats
  lockfileStats : Option LockfileStats
deriving DecidableEq, Repr

/-- `PackageJson` from `src/types/index.ts`, restricted to the dependency
groups the analyzers read.  Each group is the parsed JSON object, an ordered
association list of name/version-range pairs. -/
structure PackageJson where
  dependencies : List (String × String)
  devDependencies : List (String × String)
  optionalDependencies : List (String × String)
deriving DecidableEq, Repr

/-- One package directory found by `scanNodeModules` (node-modules scanner):
its name (scope-qualified), manifest version, sampled size in bytes, and the
two markers `parsePackage` computes.  The filesystem walk itself is out of
scope; this record is its per-package outcome. -/
structure NodeModulesPackage where
  name : String
  version : String
  size : Nat
  hasPostinstall : Bool
  hasNodeGyp : Bool
deriving DecidableEq, Repr

/-- `LockfileAnalysis` from `src/analyzers/lockfile.ts`. -/
structure LockfileAnalysis where
  lockfileType : String
  lockfileVersion : Option Nat
  totalDependencies : Nat
  packagesWithInstallScripts : List String
  slowPackages : List PackageAnalysis
deriving DecidableEq, Repr

/-- `MeasurementResult` from `src/analyzers/measure.ts`. -/
structure MeasurementResult where
  name : String
  version : String
  installTime : Nat
  size : Nat
  success : Bool
  error : Option String
deriving DecidableEq, Repr

/-- Inputs available to the deep-scan phase of `main` (`src/cli/index.ts`):
the scanned `node_modules` package list and the lockfile analyzer's output
for the project directory. -/
structure DeepInput where
  nmPkgs : List NodeModulesPackage
  lockfile : LockfileAnalysis
deriving DecidableEq, Repr

/-- `SLOW_PACKAGES` from `src/database/slow-packages.ts`, entry for entry. -/
def SLOW_PACKAGES : List SlowPackageInfo := [
  { name := "puppeteer", reason := .binaryDownload, estimatedTime := 45,
    alternative := some "puppeteer-core",
    note := some "Downloads Chromium browser (~150MB). Use puppeteer-core and provide your own browser." },
  { name := "playwright", reason := .binaryDownload, estimatedTime := 30,
    note := some "Downloads browser binaries for Chromium, Firefox, and WebKit" },
  { name := "electron", reason := .binaryDownload, estimatedTime := 40,
    note := some "Large binary download (~100MB)" },
  { name := "cypress", reason := .binaryDownload, estimatedTime := 35,
    note := some "Downloads Cypress binary (~100MB)" },
  { name := "@tensorflow/tfjs-node", reason := .nativeCompilation, estimatedTime := 30,
    alternative := some "@tensorflow/tfjs",
    note := some "Compiles native TensorFlow bindings. Use pure JS version if GPU not needed." },
  { name := "sharp", reason := .nativeCompilation, estimatedTime := 12,
    alternative := some "jimp",
    note := some "Requires libvips compilation. jimp is pure JS but slower at runtime." },
  { name := "node-sass", reason := .nativeCompilation, estimatedTime := 15,
    alternative := some "sass",
    note := some "DEPRECATED. Use Dart Sass (sass package) which is pure JS." },
  { name := "grpc", reason := .nativeCompilation, estimatedTime := 20,
    alternative := some "@grpc/grpc-js",
    note := some "Native addon. @grpc/grpc-js is pure JS implementation." },
  { name := "sqlite3", reason := .nativeCompilation, estimatedTime := 10,
    alternative := some "better-sqlite3",
    note := some "Requires native compilation" },
  { name := "bcrypt", reason := .nativeCompilation, estimatedTime := 8,
    alternative := some "bcryptjs",
    note := some "Native addon. bcryptjs is pure JS (slower but no compilation)." },
  { name := "node-gyp", reason := .nativeCompilation, estimatedTime := 10,
    note := some "Build tool for native addons" },
  { name := "canvas", reason := .nativeCompilation, estimatedTime := 15,
    note := some "Requires Cairo graphics library compilation" },
  { name := "aws-sdk", reason := .largeDeps, estimatedTime := 20,
    alternative := some "@aws-sdk/client-*",
    note := some "Massive package with all AWS services. Use modular @aws-sdk/client-* packages." },
  { name := "@angular/cli", reason := .largeDeps, estimatedTime := 25,
    note := some "Large dependency tree with many packages" },
  { name := "webpack", reason := .largeDeps, estimatedTime := 10,
    note := some "Large package with many dependencies" },
  { name := "selenium-webdriver", reason := .postinstall, estimatedTime := 8,
    note := some "Downloads browser drivers in postinstall" },
  { name := "chromedriver", reason := .binaryDownload, estimatedTime := 10,
    note := some "Downloads ChromeDriver binary" },
  { name := "geckodriver", reason := .binaryDownload, estimatedTime := 8,
    note := some "Downloads GeckoDriver binary" }]

/-- `findSlowPackage` from `src/database/slow-packages.ts`. -/
def findSlowPackage (packageName : String) : Option SlowPackageInfo :=
  SLOW_PACKAGES.find? (fun pkg => pkg.name == packageName)

/-- JS object assignment of one key/value pair into an ordered object:
an existing key keeps its position and takes the new value, a fresh key is
appended.  This is the per-entry semantics of object spread. -/
def objInsert (o : List (String × String)) (kv : String × String) :
    List (String × String) :=
  if o.any (fun p => p.1 == kv.1) then
    o.map (fun p => if p.1 == kv.1 then (p.1, kv.2) else p)
  else
    o ++ [kv]

/-- Spreading a whole (raw) object into `o`, entry by entry. -/
def objInsertAll (o : List (String × String)) (l : List (String × String)) :
    List (String × String) :=
  l.foldl objInsert o

/-- The `allDeps` object of `analyzeProject` (`src/analyzers/heuristics.ts`):
`{...dependencies, ...devDependencies, ...optionalDependencies}`. -/
def allDepsOf (pj : PackageJson) : List (String × String) :=
  objInsertAll (objInsertAll (objInsertAll [] pj.dependencies)
    pj.devDependencies) pj.optionalDependencies

/-- JS property lookup on an ordered object (first matching key). -/
def objLookup : List (String × String) → String → Option String
  | [], _ => none
  | kv :: rest, k => if kv.1 == k then some kv.2 else objLookup rest k

/-- Value of the LAST entry for a key in a raw entry list (JS object
literals and JSON give the last duplicate key the final say). -/
def lookupLastVal : List (String × String) → String → Option String
  | [], _ => none
  | kv :: rest, k =>
    match lookupLastVal rest k with
    | some v => some v
    | none => if kv.1 == k then some kv.2 else none

/-- First-occurrence deduplication of a key list (the key order produced by
JS object spread). -/
def dedupFirstKeys (ks : List String) : List String :=
  ks.foldl (fun acc k => if acc.any (fun x => x == k) then acc else acc ++ [k]) []

/-- Stable insertion of `x` into `l`: `x` is placed before the first element
that does not strictly precede it under `lt`.  For a JS comparator `c`,
`lt a b` is `c a b < 0`. -/
def insertStable (lt : α → α → Bool) (x : α) : List α → List α
  | [] => [x]
  | y :: ys => if lt y x then y :: insertStable lt x ys else x :: y :: ys

/-- Stable sort by the strict "must come first" relation `lt`; models
`Array.prototype.sort` (stable since ES2019) with a consistent comparator. -/
def stableSort (lt : α → α → Bool) : List α → List α
  | [] => []
  | x :: xs => insertStable lt x (stableSort lt xs)

/-- Strict precedence for `(a, b) => (b.estimatedTime || 0) - (a.estimatedTime || 0)`:
`a` must come before `b` iff `a` has the strictly larger time. -/
def timeBefore (a b : PackageAnalysis) : Bool :=
  b.estimatedTime < a.estimatedTime

/-- `slowPackages.sort((a, b) => (b.estimatedTime || 0) - (a.estimatedTime || 0))`. -/
def sortByTimeDesc (l : List PackageAnalysis) : List PackageAnalysis :=
  stableSort timeBefore l

/-- `getPriority` from `src/analyzers/heuristics.ts` / `src/cli/index.ts`. -/
def getPriority (timeSeconds : Nat) : Priority :=
  if 20 ≤ timeSeconds then .high
  else if 10 ≤ timeSeconds then .medium
  else .low

/-- Numeric priority order used by the suggestion sort comparator. -/
def priorityOrder : Priority → Nat
  | .high => 3
  | .medium => 2
  | .low => 1

/-- Strict precedence for the suggestion comparator: priority descending,
ties by `potentialSavings` descending. -/
def suggBefore (a b : Suggestion) : Bool :=
  priorityOrder b.priority < priorityOrder a.priority ||
    (priorityOrder b.priority == priorityOrder a.priority &&
      b.potentialSavings < a.potentialSavings)

/-- Loop body of `generateSuggestions`: the suggestion pushed for one slow
package, if any.  The source first skips packages with neither alternative
nor note, then pushes a `replace` suggestion if an alternative exists, else
an `optimize` suggestion if a note exists.  (JS truthiness: these fields are
either absent or non-empty strings drawn from the knowledge base.)
`Math.floor(t * 0.5)` on a natural `t` is `t / 2`. -/
def suggestFor (pkg : PackageAnalysis) : Option Suggestion :=
  match pkg.alternative with
  | some alt => some
    { type := .replace,
      packageName := pkg.name,
      currentTime := pkg.estimatedTime,
      suggestion := "Replace " ++ pkg.name ++ " → " ++ alt,
      potentialSavings := pkg.estimatedTime,
      priority := getPriority pkg.estimatedTime }
  | none =>
    match pkg.note with
    | some note => some
      { type := .optimize,
        packageName := pkg.name,
        currentTime := pkg.estimatedTime,
        suggestion := note,
        potentialSavings := pkg.estimatedTime / 2,
        priority := getPriority pkg.estimatedTime }
    | none => none

/-- `generateSuggestions` (identical in `src/analyzers/heuristics.ts` and
`src/cli/index.ts`): collect a suggestion per actionable package, then sort
by priority and potential savings. -/
def generateSuggestions (slowPackages : List PackageAnalysis) : List Suggestion :=
  stableSort suggBefore (slowPackages.filterMap suggestFor)

/-- Per-dependency classification in `analyzeProject`: a record is built only
for a knowledge-base hit whose estimate meets the threshold (inclusive). -/
def classifyManifestDep (thresholdSeconds : Nat) (nv : String × String) :
    Option PackageAnalysis :=
  match findSlowPackage nv.1 with
  | some slowInfo =>
    if thresholdSeconds ≤ slowInfo.estimatedTime then
      some { name := nv.1,
             version := some nv.2,
             isSlowPackage := true,
             estimatedTime := slowInfo.estimatedTime,
             reason := some slowInfo.reason,
             alternative := slowInfo.alternative,
             note := slowInfo.note,
             hasPostinstall := none }
    else none
  | none => none

/-- One iteration of the accumulation loop of `analyzeProject`: push the
qualifying record and add its estimate to the running total. -/
def manifestStep (thresholdSeconds : Nat) (acc : List PackageAnalysis × Nat)
    (nv : String × String) : List PackageAnalysis × Nat :=
  match classifyManifestDep thresholdSeconds nv with
  | some analysis => (acc.1 ++ [analysis], acc.2 + analysis.estimatedTime)
  | none => acc

/-- The accumulation loop of `analyzeProject`: pushes each qualifying record
and adds its estimate to the running total. -/
def manifestFold (allDeps : List (String × String)) (thresholdSeconds : Nat) :
    List PackageAnalysis × Nat :=
  allDeps.foldl (manifestStep thresholdSeconds) ([], 0)

/-- `analyzeProject` from `src/analyzers/heuristics.ts` (the manifest is
taken already parsed; a missing `package.json` aborts the run before this
logic and is out of scope). -/
def analyzeProject (pj : PackageJson) (thresholdSeconds : Nat) : AnalysisResult :=
  let allDeps := allDepsOf pj
  let folded := manifestFold allDeps thresholdSeconds
  let slowPackages := sortByTimeDesc folded.1
  let suggestions := generateSuggestions slowPackages
  { totalPackages := allDeps.length,
    slowPackages := slowPackages,
    estimatedTotalTime := folded.2,
    potentialSavings := suggestions.foldl (fun sum s => sum + s.potentialSavings) 0,
    suggestions := suggestions,
    nodeModulesStats := none,
    lockfileStats := none }

/-- Loop body of `analyzeNodeModules` (node-modules scanner), with its
`continue`-based priority: knowledge-base hit meeting the threshold first,
then the native-build marker, then a large package with an install script.
`Math.ceil(size / (5 * 1024 * 1024))` on a positive natural is
`(size + 5 * 1024 * 1024 - 1) / (5 * 1024 * 1024)`. -/
def classifyNodeModulesPackage (thresholdSeconds : Nat) (pkg : NodeModulesPackage) :
    Option PackageAnalysis :=
  match findSlowPackage pkg.name with
  | some slowInfo =>
    if thresholdSeconds ≤ slowInfo.estimatedTime then
      some { name := pkg.name,
             version := some pkg.version,
             isSlowPackage := true,
             estimatedTime := slowInfo.estimatedTime,
             reason := some slowInfo.reason,
             alternative := slowInfo.alternative,
             note := slowInfo.note,
             hasPostinstall := some pkg.hasPostinstall }
    else classifyNodeModulesDynamic pkg
  | none => classifyNodeModulesDynamic pkg
where
  /-- The two dynamic-detection branches reached when the knowledge base does
  not settle the package. -/
  classifyNodeModulesDynamic (pkg : NodeModulesPackage) : Option PackageAnalysis :=
    if pkg.hasNodeGyp then
      some { name := pkg.name,
             version := some pkg.version,
             isSlowPackage := true,
             estimatedTime := 10,
             reason := some .nativeCompilation,
             alternative := none,
             note := some "Contains native bindings (detected binding.gyp or node-gyp dependency)",
             hasPostinstall := some pkg.hasPostinstall }
    else if pkg.hasPostinstall && 10 * 1024 * 1024 < pkg.size then
      some { name := pkg.name,
             version := some pkg.version,
             isSlowPackage := true,
             estimatedTime := (pkg.size + 5 * 1024 * 1024 - 1) / (5 * 1024 * 1024),
             reason := some .postinstall,
             alternative := none,
             note := some "Has postinstall script and large package size",
             hasPostinstall := some true }
    else none

/-- `analyzeNodeModules` (node-modules scanner), over the scanned package
list: classify every package, keep the matches, sort by time descending. -/
def analyzeNodeModules (pkgs : List NodeModulesPackage) (thresholdSeconds : Nat) :
    List PackageAnalysis :=
  sortByTimeDesc (pkgs.filterMap (classifyNodeModulesPackage thresholdSeconds))

/-- Strict precedence for `(a, b) => b.size - a.size`. -/
def sizeBefore (a b : NodeModulesPackage) : Bool :=
  b.size < a.size

/-- `getNodeModulesStats` (node-modules scanner), over the scanned package
list: package count, summed sampled sizes, and the ten largest packages. -/
def getNodeModulesStats (pkgs : List NodeModulesPackage) : NodeModulesStats :=
  let sorted := stableSort sizeBefore pkgs
  { totalPackages := pkgs.length,
    totalSize := pkgs.foldl (fun sum pkg => sum + pkg.size) 0,
    largestPackages := (sorted.take 10).map (fun pkg => (pkg.name, pkg.size)) }

/-- Splitting a character list on a separator character, with JS
`String.prototype.split` semantics (an empty input yields one empty piece,
a trailing separator yields a trailing empty piece). -/
def splitOnChar (sep : Char) : List Char → List (List Char)
  | [] => [[]]
  | c :: rest =>
    match splitOnChar sep rest with
    | [] => [[]]
    | cur :: others =>
      if c == sep then [] :: cur :: others else (c :: cur) :: others

/-- JS `\s` (whitespace class) membership, by code point. -/
def isJsWhitespace (c : Char) : Bool :=
  c.val == 0x20 || (0x9 ≤ c.val && c.val ≤ 0xD) || c.val == 0xA0 ||
    c.val == 0x1680 || (0x2000 ≤ c.val && c.val ≤ 0x200A) || c.val == 0x2028 ||
    c.val == 0x2029 || c.val == 0x202F || c.val == 0x205F || c.val == 0x3000 ||
    c.val == 0xFEFF

/-- The per-line regex of `analyzeYarnLockfile`
(`/^"?(@?[^@\s"]+)@/` in `src/analyzers/lockfile.ts`): an optional opening
quote, an optional `@` starting the captured name, one or more characters
that are not `@`, whitespace or `"`, then a literal `@`.  Returns the
captured package name.  The character class cannot match `@`, so the greedy
run is exactly the maximal `takeWhile` and no backtracking case remains. -/
def yarnLineName (line : String) : Option String :=
  let cs := line.toList
  let cs := match cs with
    | '"' :: rest => rest
    | other => other
  let atPrefix : List Char × List Char := match cs with
    | '@' :: rest => (['@'], rest)
    | other => ([], other)
  let body := atPrefix.2.takeWhile
    (fun c => !(c == '@') && !isJsWhitespace c && !(c == '"'))
  if body.isEmpty then none
  else match atPrefix.2.drop body.length with
    | '@' :: _ => some (String.mk (atPrefix.1 ++ body))
    | _ => none

/-- Loop body of `analyzeYarnLockfile` over one line: record the parsed name
in the `packages` set (insertion-ordered, deduplicated) and push a slow
record for a knowledge-base hit above threshold, skipping names already
pushed. -/
def yarnLineStep (thresholdSeconds : Nat)
    (acc : List String × List PackageAnalysis) (line : String) :
    List String × List PackageAnalysis :=
  match yarnLineName line with
  | none => acc
  | some name =>
    let packages :=
      if acc.1.any (fun x => x == name) then acc.1 else acc.1 ++ [name]
    let slowPackages :=
      match findSlowPackage name with
      | some slowInfo =>
        if thresholdSeconds ≤ slowInfo.estimatedTime &&
            !(acc.2.any (fun p => p.name == name)) then
          acc.2 ++ [{ name := name,
                      version := none,
                      isSlowPackage := true,
                      estimatedTime := slowInfo.estimatedTime,
                      reason := some slowInfo.reason,
                      alternative := slowInfo.alternative,
                      note := slowInfo.note,
                      hasPostinstall := none }]
        else acc.2
      | none => acc.2
    (packages, slowPackages)

/-- `analyzeYarnLockfile` from `src/analyzers/lockfile.ts`, over the raw
file content.  yarn.lock carries no install-script information, so
`packagesWithInstallScripts` is the literal empty array. -/
def analyzeYarnLockfile (content : String) (thresholdSeconds : Nat) :
    LockfileAnalysis :=
  let lines := (splitOnChar '\n' content.toList).map (fun cs => String.mk cs)
  let acc := lines.foldl (yarnLineStep thresholdSeconds) ([], [])
  { lockfileType := "yarn",
    lockfileVersion := none,
    totalDependencies := acc.1.length,
    packagesWithInstallScripts := [],
    slowPackages := sortByTimeDesc acc.2 }

/-- The result `analyzeLockfile` returns when only `pnpm-lock.yaml` exists. -/
def pnpmLockfileAnalysis : LockfileAnalysis :=
  { lockfileType := "pnpm",
    lockfileVersion := none,
    totalDependencies := 0,
    packagesWithInstallScripts := [],
    slowPackages := [] }

/-- The result `analyzeLockfile` returns when no lockfile exists. -/
def noLockfileAnalysis : LockfileAnalysis :=
  { lockfileType := "none",
    lockfileVersion := none,
    totalDependencies := 0,
    packagesWithInstallScripts := [],
    slowPackages := [] }

/-- Loop body of the deep-scan merge in `main` (`src/cli/index.ts`): a
finding is appended (and its time added) only when its name is not in
`existingNames` — the snapshot of the base set's names, which the source
never updates while appending. -/
def mergeStep (existingNames : List String)
    (acc : List PackageAnalysis × Nat) (pkg : PackageAnalysis) :
    List PackageAnalysis × Nat :=
  if existingNames.any (fun n => n == pkg.name) then acc
  else (acc.1 ++ [pkg], acc.2 + pkg.estimatedTime)

/-- The two merge loops of the deep-scan branch of `main`: node-modules
findings first, then lockfile findings, both checked against the one
`existingNames` snapshot taken before either loop. -/
def mergeAll (base : AnalysisResult) (nmFindings lfFindings : List PackageAnalysis) :
    List PackageAnalysis × Nat :=
  let existingNames := base.slowPackages.map (fun p => p.name)
  lfFindings.foldl (mergeStep existingNames)
    (nmFindings.foldl (mergeStep existingNames)
      (base.slowPackages, base.estimatedTotalTime))

/-- The deep-scan branch of `main` (`src/cli/index.ts`): merge, re-sort,
attach stats, recompute `totalPackages` as
`Math.max(result.totalPackages, lockfile.totalDependencies,
stats.totalSize > 0 ? stats.largestPackages.length : 0)`, and regenerate
suggestions. -/
def deepScanMerge (base : AnalysisResult) (nmFindings : List PackageAnalysis)
    (lf : LockfileAnalysis) (nmStats : NodeModulesStats) : AnalysisResult :=
  let merged := mergeAll base nmFindings lf.slowPackages
  let slowPackages := sortByTimeDesc merged.1
  let suggestions := generateSuggestions slowPackages
  { totalPackages :=
      max base.totalPackages (max lf.totalDependencies
        (if 0 < nmStats.totalSize then nmStats.largestPackages.length else 0)),
    slowPackages := slowPackages,
    estimatedTotalTime := merged.2,
    potentialSavings := suggestions.foldl (fun sum s => sum + s.potentialSavings) 0,
    suggestions := suggestions,
    nodeModulesStats := some nmStats,
    lockfileStats := some
      { lockfileType := lf.lockfileType,
        totalDeps := lf.totalDependencies,
        installScriptCount := lf.packagesWithInstallScripts.length } }

/-- The in-place mutation of the measurement loop of `main`: overwrite
`estimatedTime` with the measured install time and `note` with the
synthesized measured-value text. -/
def measuredUpdate (m : MeasurementResult) (p : PackageAnalysis) :
    PackageAnalysis :=
  { p with estimatedTime := m.installTime,
           note := some ("Measured: " ++ toString m.installTime ++ "s") }

/-- One measurement applied to the slow-package list, as in the measurement
loop of `main`: `find` locates the first record with the measured name, and
only a successful measurement overwrites its `estimatedTime` and `note`. -/
def overwriteFirst (m : MeasurementResult) :
    List PackageAnalysis → List PackageAnalysis
  | [] => []
  | p :: rest =>
    if p.name == m.name then
      (if m.success then measuredUpdate m p else p) :: rest
    else p :: overwriteFirst m rest

/-- The measurement branch of `main` (`src/cli/index.ts`): apply each
measurement to the list, then recompute `estimatedTotalTime` as the reduce
over the (possibly updated) records.  The list is NOT re-sorted and
suggestions are NOT regenerated here. -/
def measurementRefine (base : AnalysisResult) (ms : List MeasurementResult) :
    AnalysisResult :=
  let slowPackages := ms.foldl (fun l m => overwriteFirst m l) base.slowPackages
  { base with
    slowPackages := slowPackages,
    estimatedTotalTime :=
      slowPackages.foldl (fun sum p => sum + p.estimatedTime) 0 }

/-- The unsorted merged evidence list of a run before the final descending
sort: the manifest loop's push order, extended in deep-scan mode by the
merge loops' push order. -/
def mergedSlowUnsorted (pj : PackageJson) (thresholdSeconds : Nat)
    (deep : Option DeepInput) : List PackageAnalysis :=
  match deep with
  | none => (manifestFold (allDepsOf pj) thresholdSeconds).1
  | some d =>
    (mergeAll (analyzeProject pj thresholdSeconds)
      (analyzeNodeModules d.nmPkgs thresholdSeconds) d.lockfile.slowPackages).1

/-- The analysis pipeline of `main` (`src/cli/index.ts`): manifest analysis
always runs; the deep-scan merge runs when `--deep` was given (its inputs
are the scanned tree and the lockfile analysis); the measurement refinement
runs when `--measure` was given and the slow-package list is non-empty
(its input is the probe's result list). -/
def runAnalysis (pj : PackageJson) (thresholdSeconds : Nat)
    (deep : Option DeepInput) (measure : Option (List MeasurementResult)) :
    AnalysisResult :=
  let base := analyzeProject pj thresholdSeconds
  let afterDeep := match deep with
    | none => base
    | some d =>
      deepScanMerge base (analyzeNodeModules d.nmPkgs thresholdSeconds)
        d.lockfile (getNodeModulesStats d.nmPkgs)
  match measure with
  | none => afterDeep
  | some ms =>
    if 0 < afterDeep.slowPackages.length then measurementRefine afterDeep ms
    else afterDeep

/-- Inserting stably yields a permutation of consing. -/
theorem insertStable_perm (lt : α → α → Bool) (x : α) :
    ∀ l : List α, (insertStable lt x l).Perm (x :: l)
  | [] => by simp [insertStable]
  | y :: ys => by
    simp only [insertStable]
    by_cases h : lt y x
    · simp only [h, if_true]
      exact ((insertStable_perm lt x ys).cons y).trans (List.Perm.swap x y ys)
    · simp [h]

/-- Stable sorting permutes the list. -/
theorem stableSort_perm (lt : α → α → Bool) :
    ∀ l : List α, (stableSort lt l).Perm l
  | [] => by simp [stableSort]
  | x :: xs => by
    simpa [stableSort] using
      (insertStable_perm lt x (stableSort lt xs)).trans
        ((stableSort_perm lt xs).cons x)

/-- The head of a stable insertion is the inserted element or the old head. -/
theorem insertStable_head (lt : α → α → Bool) (x : α) :
    ∀ (l : List α) (u : α), (insertStable lt x l).head? = some u →
      u = x ∨ l.head? = some u
  | [], u, h => by
    simp [insertStable] at h
    exact Or.inl h.symm
  | y :: ys, u, h => by
    simp only [insertStable] at h
    by_cases hyx : lt y x
    · rw [if_pos hyx] at h
      simp only [List.head?_cons, Option.some.injEq] at h
      exact Or.inr (by simp [h])
    · rw [if_neg hyx] at h
      simp only [List.head?_cons, Option.some.injEq] at h
      exact Or.inl h.symm

/-- Stable insertion preserves the sortedness chain of an asymmetric strict
comparator relation. -/
theorem chain'_insertStable (lt : α → α → Bool)
    (hasym : ∀ a b, lt a b = true → lt b a = false) (x : α) :
    ∀ l : List α, List.Chain' (fun a b => lt b a = false) l →
      List.Chain' (fun a b => lt b a = false) (insertStable lt x l)
  | [], _ => List.chain'_singleton x
  | y :: ys, h => by
    simp only [insertStable]
    by_cases hyx : lt y x
    · rw [if_pos hyx]
      refine List.chain'_cons'.mpr ⟨?_, chain'_insertStable lt hasym x ys h.tail⟩
      intro u hu
      rcases insertStable_head lt x ys u hu with rfl | hy
      · exact hasym y u hyx
      · exact (List.chain'_cons'.mp h).1 u hy
    · rw [if_neg hyx]
      exact List.chain'_cons.mpr ⟨Bool.not_eq_true _ ▸ eq_false_of_ne_true hyx, h⟩

/-- A fully stable sort is sorted for the comparator relation. -/
theorem chain'_stableSort (lt : α → α → Bool)
    (hasym : ∀ a b, lt a b = true → lt b a = false) :
    ∀ l : List α, List.Chain' (fun a b => lt b a = false) (stableSort lt l)
  | [] => List.chain'_nil
  | x :: xs =>
    chain'_insertStable lt hasym x _ (chain'_stableSort lt hasym xs)

/-- `timeBefore` is asymmetric. -/
theorem timeBefore_asym :
    ∀ a b : PackageAnalysis, timeBefore a b = true → timeBefore b a = false := by
  intro a b h
  simp only [timeBefore, decide_eq_true_eq] at h
  simp only [timeBefore, decide_eq_false_iff_not]
  omega

/-- Stable insertion by descending time leaves the subsequence of any fixed
time unchanged, except that an inserted element of that time becomes its
first element (all elements it jumps over have strictly larger times). -/
theorem filter_time_insertStable (t : Nat) (x : PackageAnalysis) :
    ∀ l : List PackageAnalysis,
      (insertStable timeBefore x l).filter (fun p => p.estimatedTime == t) =
        if x.estimatedTime == t then
          x :: l.filter (fun p => p.estimatedTime == t)
        else l.filter (fun p => p.estimatedTime == t)
  | [] => by
    by_cases hx : x.estimatedTime == t <;> simp [insertStable, hx]
  | y :: ys => by
    simp only [insertStable]
    by_cases hyx : timeBefore y x
    · rw [if_pos hyx]
      by_cases hx : x.estimatedTime = t
      · have hyt : ¬(y.estimatedTime = t) := by
          simp only [timeBefore, decide_eq_true_eq] at hyx
          omega
        simp [List.filter_cons, hx, hyt, filter_time_insertStable t x ys]
      · simp [List.filter_cons, hx, filter_time_insertStable t x ys]
    · rw [if_neg hyx]
      by_cases hx : x.estimatedTime = t <;> simp [List.filter_cons, hx]

/-- Stability of the descending-time sort: the subsequence of records with
any fixed `estimatedTime` is exactly the one of the unsorted list. -/
theorem filter_time_stableSort (t : Nat) :
    ∀ l : List PackageAnalysis,
      (sortByTimeDesc l).filter (fun p => p.estimatedTime == t) =
        l.filter (fun p => p.estimatedTime == t)
  | [] => by simp [sortByTimeDesc, stableSort]
  | x :: xs => by
    have ih := filter_time_stableSort t xs
    simp only [sortByTimeDesc, stableSort] at ih ⊢
    rw [filter_time_insertStable t x (stableSort timeBefore xs)]
    by_cases hx : x.estimatedTime = t <;> simp [List.filter_cons, hx, ih]

/-- The reduce that recomputes a time total is the sum of the mapped times. -/
theorem foldl_add_time :
    ∀ (l : List PackageAnalysis) (t : Nat),
      l.foldl (fun sum p => sum + p.estimatedTime) t =
        t + (l.map (fun p => p.estimatedTime)).sum
  | [], t => by simp
  | p :: rest, t => by
    simp only [List.foldl_cons, List.map_cons, List.sum_cons]
    rw [foldl_add_time rest (t + p.estimatedTime)]
    omega

/-- A knowledge-base classification succeeds exactly for an above-threshold
hit, and fully determines the produced record. -/
theorem classifyManifestDep_eq_some (θ : Nat) (nv : String × String)
    (a : PackageAnalysis) :
    classifyManifestDep θ nv = some a ↔
      ∃ info, findSlowPackage nv.1 = some info ∧ θ ≤ info.estimatedTime ∧
        a = { name := nv.1, version := some nv.2, isSlowPackage := true,
              estimatedTime := info.estimatedTime, reason := some info.reason,
              alternative := info.alternative, note := info.note,
              hasPostinstall := none } := by
  cases h : findSlowPackage nv.1 with
  | none => simp [classifyManifestDep, h]
  | some info =>
    by_cases hθ : θ ≤ info.estimatedTime
    · simp [classifyManifestDep, h, hθ, eq_comm]
    · simp [classifyManifestDep, h, hθ]

/-- Closed form of the manifest accumulation loop: the pushed records are the
qualifying classifications in declaration order, and the running total is
the sum of their estimates. -/
theorem manifestFold_go (θ : Nat) :
    ∀ (l : List (String × String)) (acc : List PackageAnalysis) (t : Nat),
      l.foldl (manifestStep θ) (acc, t) =
        (acc ++ l.filterMap (classifyManifestDep θ),
         t + ((l.filterMap (classifyManifestDep θ)).map
              (fun p => p.estimatedTime)).sum)
  | [], acc, t => by simp
  | nv :: rest, acc, t => by
    cases hc : classifyManifestDep θ nv with
    | none =>
      simp only [List.foldl_cons, List.filterMap_cons, manifestStep, hc]
      exact manifestFold_go θ rest acc t
    | some a =>
      simp only [List.foldl_cons, List.filterMap_cons, manifestStep, hc]
      rw [manifestFold_go θ rest (acc ++ [a]) (t + a.estimatedTime)]
      simp [List.append_assoc, Nat.add_assoc]

/-- Closed form of `manifestFold`. -/
theorem manifestFold_eq (l : List (String × String)) (θ : Nat) :
    manifestFold l θ =
      (l.filterMap (classifyManifestDep θ),
       ((l.filterMap (classifyManifestDep θ)).map
        (fun p => p.estimatedTime)).sum) := by
  simpa [manifestFold] using manifestFold_go θ l [] 0

/-- Closed form of one deep-scan merge loop: it appends exactly the findings
whose names are not in the snapshot, and adds exactly their times. -/
theorem mergeFold_go (ex : List String) :
    ∀ (l s : List PackageAnalysis) (t : Nat),
      l.foldl (mergeStep ex) (s, t) =
        (s ++ l.filter (fun p => !(ex.any (fun n => n == p.name))),
         t + ((l.filter (fun p => !(ex.any (fun n => n == p.name)))).map
              (fun p => p.estimatedTime)).sum)
  | [], s, t => by simp
  | p :: rest, s, t => by
    cases hp : ex.any (fun n => n == p.name) with
    | true =>
      simp only [List.foldl_cons, List.filter_cons, mergeStep, hp, if_true,
        Bool.not_true, Bool.false_eq_true, if_false]
      exact mergeFold_go ex rest s t
    | false =>
      simp only [List.foldl_cons, List.filter_cons, mergeStep, hp,
        Bool.false_eq_true, if_false, Bool.not_false, if_true]
      rw [mergeFold_go ex rest (s ++ [p]) (t + p.estimatedTime)]
      simp [List.append_assoc, Nat.add_assoc]

/-- Closed form of the whole deep-scan merge accumulation. -/
theorem mergeAll_eq (base : AnalysisResult) (nm lf : List PackageAnalysis) :
    mergeAll base nm lf =
      (base.slowPackages
         ++ nm.filter (fun p =>
              !((base.slowPackages.map (fun q => q.name)).any
                (fun n => n == p.name)))
         ++ lf.filter (fun p =>
              !((base.slowPackages.map (fun q => q.name)).any
                (fun n => n == p.name))),
       base.estimatedTotalTime
         + ((nm.filter (fun p =>
              !((base.slowPackages.map (fun q => q.name)).any
                (fun n => n == p.name)))).map (fun p => p.estimatedTime)).sum
         + ((lf.filter (fun p =>
              !((base.slowPackages.map (fun q => q.name)).any
                (fun n => n == p.name)))).map (fun p => p.estimatedTime)).sum) := by
  simp only [mergeAll]
  rw [mergeFold_go, mergeFold_go]

/-- Applying a measurement never changes the name sequence of the list. -/
theorem overwriteFirst_map_name (m : MeasurementResult) :
    ∀ l : List PackageAnalysis,
      (overwriteFirst m l).map (fun p => p.name) = l.map (fun p => p.name)
  | [] => rfl
  | p :: rest => by
    simp only [overwriteFirst]
    by_cases hp : p.name == m.name
    · rw [if_pos hp]
      by_cases hs : m.success <;> simp [hs, measuredUpdate]
    · rw [if_neg hp]
      simp [overwriteFirst_map_name m rest]

/-- If a predicate on records factors through the name, its count is stable
under applying a measurement. -/
theorem overwriteFirst_countP_name (m : MeasurementResult) (n : String)
    (l : List PackageAnalysis) :
    (overwriteFirst m l).countP (fun p => p.name == n) =
      l.countP (fun p => p.name == n) := by
  have h1 := List.countP_map (fun s => s == n) (fun p : PackageAnalysis => p.name)
    (overwriteFirst m l)
  have h2 := List.countP_map (fun s => s == n) (fun p : PackageAnalysis => p.name) l
  rw [overwriteFirst_map_name m l] at h1
  simp only [Function.comp_def] at h1 h2
  exact h1.symm.trans h2

/-- A predicate holding exactly once on a list holds on a unique value. -/
theorem countP_eq_one_unique {p : α → Bool} :
    ∀ {l : List α}, l.countP p = 1 →
      ∀ a ∈ l, p a → ∀ b ∈ l, p b → a = b := by
  intro l
  induction l with
  | nil => intro _ a ha; exact absurd ha (List.not_mem_nil a)
  | cons x rest ih =>
    intro hcount a ha hpa b hb hpb
    rw [List.countP_cons] at hcount
    by_cases hx : p x
    · have hrest : rest.countP p = 0 := by rw [if_pos hx] at hcount; omega
      have hnone := List.countP_eq_zero.mp hrest
      have ha' : a = x := by
        rcases List.mem_cons.mp ha with h | h
        · exact h
        · exact absurd hpa (by simpa using hnone a h)
      have hb' : b = x := by
        rcases List.mem_cons.mp hb with h | h
        · exact h
        · exact absurd hpb (by simpa using hnone b h)
      rw [ha', hb']
    · have hcount' : rest.countP p = 1 := by
        rw [if_neg (by simpa using hx)] at hcount; omega
      have ha' : a ∈ rest := by
        rcases List.mem_cons.mp ha with h | h
        · exact absurd (h ▸ hpa) (by simpa using hx)
        · exact h
      have hb' : b ∈ rest := by
        rcases List.mem_cons.mp hb with h | h
        · exact absurd (h ▸ hpb) (by simpa using hx)
        · exact h
      exact ih hcount' a ha' hpa b hb' hpb

/-- Tracking the unique record of a given name through one measurement:
it is updated when the measurement targets that name and succeeded, and
kept verbatim otherwise. -/
theorem overwriteFirst_track (m : MeasurementResult) (n : String) :
    ∀ (l : List PackageAnalysis) (v : PackageAnalysis), v ∈ l → v.name = n →
      l.countP (fun p => p.name == n) = 1 →
      (if m.name = n ∧ m.success = true then measuredUpdate m v else v) ∈
        overwriteFirst m l := by
  intro l
  induction l with
  | nil => intro v hv; exact absurd hv (List.not_mem_nil v)
  | cons q rest ih =>
    intro v hv hn hcount
    rw [List.countP_cons] at hcount
    simp only [overwriteFirst]
    by_cases hq : q.name == m.name
    · rw [if_pos hq]
      have hqm : q.name = m.name := by simpa using hq
      by_cases hqn : q.name = n
      · have hrest : rest.countP (fun p => p.name == n) = 0 := by
          rw [if_pos (by simpa using hqn : (q.name == n) = true)] at hcount
          omega
        have hvq : v = q := by
          rcases List.mem_cons.mp hv with h | h
          · exact h
          · exact absurd (show (fun p => p.name == n) v = true by simp [hn])
              (by simpa using List.countP_eq_zero.mp hrest v h)
        subst hvq
        have hmn : m.name = n := hqm ▸ hqn
        by_cases hs : m.success = true
        · simp [hmn, hs]
        · simp [hs]
      · have hvr : v ∈ rest := by
          rcases List.mem_cons.mp hv with h | h
          · exact absurd (h ▸ hn) hqn
          · exact h
        have hmn : ¬(m.name = n) := fun h => hqn (hqm.trans h)
        simp only [hmn, false_and, if_false]
        exact List.mem_cons_of_mem _ hvr
    · rw [if_neg hq]
      rcases List.mem_cons.mp hv with h | h
      · subst h
        have hmn : ¬(m.name = n) := fun hm => hq (by simp [hn, hm])
        simp only [hmn, false_and, if_false]
        exact List.mem_cons_self v _
      · by_cases hqn : (q.name == n) = true
        · have hrest0 : rest.countP (fun p => p.name == n) = 0 := by
            rw [if_pos hqn] at hcount
            omega
          exact absurd (show ((fun p => p.name == n) v) = true by simpa using hn)
            (by simpa using List.countP_eq_zero.mp hrest0 v h)
        · have hcount' : rest.countP (fun p => p.name == n) = 1 := by
            rw [if_neg hqn] at hcount
            omega
          exact List.mem_cons_of_mem _ (ih v h hn hcount')

/-- A record whose value is a fixed point of every matching successful
measurement survives the whole refinement fold verbatim. -/
theorem refine_fixed (n : String) :
    ∀ (ms : List MeasurementResult) (l : List PackageAnalysis)
      (v : PackageAnalysis), v ∈ l → v.name = n →
      l.countP (fun p => p.name == n) = 1 →
      (∀ m ∈ ms, m.name = n → m.success = true → measuredUpdate m v = v) →
      v ∈ ms.foldl (fun acc m => overwriteFirst m acc) l
  | [], l, v, hv, _, _, _ => by simpa using hv
  | m1 :: rest, l, v, hv, hn, hcount, hfix => by
    simp only [List.foldl_cons]
    have htrack := overwriteFirst_track m1 n l v hv hn hcount
    have hv1 : v ∈ overwriteFirst m1 l := by
      by_cases hc : m1.name = n ∧ m1.success = true
      · rw [if_pos hc] at htrack
        rw [hfix m1 (List.mem_cons_self m1 rest) hc.1 hc.2] at htrack
        exact htrack
      · rw [if_neg hc] at htrack
        exact htrack
    exact refine_fixed n rest (overwriteFirst m1 l) v hv1 hn
      (by rw [overwriteFirst_countP_name]; exact hcount)
      (fun m hm hmn hms => hfix m (List.mem_cons_of_mem _ hm) hmn hms)

/-- If the only measurements targeting the record's name are occurrences of a
single successful one, the refinement fold replaces the record by its
measured update. -/
theorem refine_apply (n : String) (m : MeasurementResult) :
    ∀ (ms : List MeasurementResult) (l : List PackageAnalysis)
      (v : PackageAnalysis), v ∈ l → v.name = n →
      l.countP (fun p => p.name == n) = 1 →
      m ∈ ms → m.name = n → m.success = true →
      (∀ m' ∈ ms, m'.name = n → m' = m) →
      measuredUpdate m v ∈ ms.foldl (fun acc m' => overwriteFirst m' acc) l
  | [], _, _, _, _, _, hm, _, _, _ => absurd hm (List.not_mem_nil m)
  | m1 :: rest, l, v, hv, hn, hcount, hm, hmn, hms, hall => by
    simp only [List.foldl_cons]
    have htrack := overwriteFirst_track m1 n l v hv hn hcount
    have hcount1 : (overwriteFirst m1 l).countP (fun p => p.name == n) = 1 := by
      rw [overwriteFirst_countP_name]; exact hcount
    by_cases h1 : m1 = m
    · subst h1
      rw [if_pos ⟨hmn, hms⟩] at htrack
      exact refine_fixed n rest (overwriteFirst m1 l) (measuredUpdate m1 v)
        htrack (by simpa [measuredUpdate] using hn) hcount1
        (fun m' hm' hmn' hms' => by
          rw [hall m' (List.mem_cons_of_mem _ hm') hmn']
          simp [measuredUpdate])
    · have hm' : m ∈ rest := by
        rcases List.mem_cons.mp hm with h | h
        · exact absurd h.symm h1
        · exact h
      have hm1n : ¬(m1.name = n) := fun hh =>
        h1 (hall m1 (List.mem_cons_self m1 rest) hh)
      rw [if_neg (fun hc => hm1n hc.1)] at htrack
      exact refine_apply n m rest (overwriteFirst m1 l) v htrack hn hcount1
        hm' hmn hms
        (fun m' hmm hmn' => hall m' (List.mem_cons_of_mem _ hmm) hmn')

/-- Replacing the value at one key leaves lookups of other keys unchanged. -/
theorem objLookup_map_replace_ne (k v n : String) (hne : n ≠ k) :
    ∀ o : List (String × String),
      objLookup (o.map (fun p => if p.1 == k then (p.1, v) else p)) n =
        objLookup o n
  | [] => rfl
  | p :: rest => by
    have ih := objLookup_map_replace_ne k v n hne rest
    by_cases hk : p.1 = k
    · by_cases hn : p.1 = n
      · exact absurd (hn ▸ hk) hne
      · simpa [objLookup, hk, hn, Ne.symm hne] using ih
    · by_cases hn : p.1 = n
      · have hnk : ¬(n = k) := fun h => hk (hn.trans h)
        simp [objLookup, hk, hn, hnk]
      · simpa [objLookup, hk, hn] using ih

/-- Replacing the value at an existing key makes its lookup the new value. -/
theorem objLookup_map_replace_eq (k v : String) :
    ∀ o : List (String × String), o.any (fun p => p.1 == k) = true →
      objLookup (o.map (fun p => if p.1 == k then (p.1, v) else p)) k = some v
  | p :: rest, hany => by
    by_cases hk : p.1 = k
    · simp [objLookup, hk]
    · have hrest : rest.any (fun p => p.1 == k) = true := by
        simp only [List.any_cons, Bool.or_eq_true] at hany
        rcases hany with h | h
        · exact absurd (by simpa using h) hk
        · exact h
      simpa [objLookup, hk] using objLookup_map_replace_eq k v rest hrest

/-- Appending a fresh key behaves like a final default case of lookup. -/
theorem objLookup_append_fresh (k v n : String) :
    ∀ o : List (String × String), o.any (fun p => p.1 == k) = false →
      objLookup (o ++ [(k, v)]) n =
        if n == k then some v else objLookup o n
  | [], _ => by
    by_cases hn : n = k
    · simp [objLookup, hn]
    · simp [objLookup, hn, Ne.symm hn]
  | p :: rest, hany => by
    simp only [List.any_cons, Bool.or_eq_false_iff] at hany
    by_cases hn : p.1 = n
    · have hnk : ¬(n = k) := by
        intro h
        have h1 : (p.1 == k) = false := hany.1
        rw [hn, h] at h1
        simp at h1
      simp [objLookup, List.cons_append, hn, hnk]
    · simpa [objLookup, List.cons_append, hn] using
        objLookup_append_fresh k v n rest hany.2

/-- JS object assignment: lookups after inserting `(k, v)` read `v` at `k`
and are unchanged elsewhere. -/
theorem objInsert_lookup (o : List (String × String)) (k v n : String) :
    objLookup (objInsert o (k, v)) n =
      if n == k then some v else objLookup o n := by
  by_cases hany : o.any (fun p => p.1 == (k, v).1) = true
  · rw [objInsert, if_pos hany]
    by_cases hn : n = k
    · subst hn
      rw [if_pos (by simp)]
      exact objLookup_map_replace_eq n v o hany
    · rw [if_neg (by simpa using hn)]
      exact objLookup_map_replace_ne k v n hn o
  · rw [objInsert, if_neg hany]
    exact objLookup_append_fresh k v n o (eq_false_of_ne_true hany)

/-- Spreading a raw entry list: the lookup prefers the last matching raw
entry, falling back to the original object. -/
theorem objInsertAll_lookup (n : String) :
    ∀ (l o : List (String × String)),
      objLookup (objInsertAll o l) n =
        match lookupLastVal l n with
        | some v => some v
        | none => objLookup o n
  | [], o => by simp [objInsertAll, lookupLastVal]
  | kv :: rest, o => by
    simp only [objInsertAll, List.foldl_cons]
    have ih := objInsertAll_lookup n rest (objInsert o kv)
    simp only [objInsertAll] at ih
    rw [ih]
    cases hlast : lookupLastVal rest n with
    | some v => simp [lookupLastVal, hlast]
    | none =>
      have hins : objLookup (objInsert o kv) n =
          if n == kv.1 then some kv.2 else objLookup o n :=
        objInsert_lookup o kv.1 kv.2 n
      rw [hins]
      simp only [lookupLastVal, hlast]
      by_cases hk : kv.1 = n
      · simp [hk]
      · simp [hk, Ne.symm hk]

/-- The version precedence of `{...dependencies, ...devDependencies,
...optionalDependencies}`: optional over dev over regular, with the last
duplicate raw entry winning inside each group. -/
theorem allDepsOf_lookup (pj : PackageJson) (n : String) :
    objLookup (allDepsOf pj) n =
      match lookupLastVal pj.optionalDependencies n with
      | some v => some v
      | none =>
        match lookupLastVal pj.devDependencies n with
        | some v => some v
        | none => lookupLastVal pj.dependencies n := by
  simp only [allDepsOf]
  rw [objInsertAll_lookup, objInsertAll_lookup, objInsertAll_lookup]
  cases lookupLastVal pj.optionalDependencies n with
  | some v => rfl
  | none =>
    cases lookupLastVal pj.devDependencies n with
    | some v => rfl
    | none =>
      cases lookupLastVal pj.dependencies n with
      | some v => rfl
      | none => rfl

/-- A successful lookup exhibits a matching entry of the object. -/
theorem objLookup_mem :
    ∀ (l : List (String × String)) (k v : String),
      objLookup l k = some v → (k, v) ∈ l
  | [], k, v, h => by simp [objLookup] at h
  | p :: rest, k, v, h => by
    by_cases hk : p.1 = k
    · simp only [objLookup, hk, beq_self_eq_true, if_true,
        Option.some.injEq] at h
      exact List.mem_cons.mpr (Or.inl (by rw [← hk, ← h]))
    · have hb : ¬((p.1 == k) = true) := by simpa using hk
      simp only [objLookup] at h
      rw [if_neg hb] at h
      exact List.mem_cons_of_mem _ (objLookup_mem rest k v h)

/-- Replacing values preserves the key sequence. -/
theorem map_fst_map_replace (k v : String) :
    ∀ o : List (String × String),
      (o.map (fun p => if p.1 == k then (p.1, v) else p)).map Prod.fst =
        o.map Prod.fst
  | [] => rfl
  | p :: rest => by
    have ih := map_fst_map_replace k v rest
    by_cases hk : (p.1 == k) = true
    · simp only [List.map_cons, if_pos hk, ih]
    · simp only [List.map_cons, if_neg hk, ih]

/-- Key sequence after one JS assignment: unchanged for an existing key,
extended for a fresh one. -/
theorem objInsert_map_fst (o : List (String × String)) (kv : String × String) :
    (objInsert o kv).map Prod.fst =
      if o.any (fun p => p.1 == kv.1) then o.map Prod.fst
      else o.map Prod.fst ++ [kv.1] := by
  by_cases h : o.any (fun p => p.1 == kv.1) = true
  · rw [objInsert, if_pos h, if_pos h]
    exact map_fst_map_replace kv.1 kv.2 o
  · rw [objInsert, if_neg h, if_neg h]
    simp

/-- The `any` test of an assignment seen on the key sequence. -/
theorem objInsert_any_fst (k : String) :
    ∀ o : List (String × String),
      (o.any (fun p => p.1 == k)) = ((o.map Prod.fst).any (fun y => y == k))
  | [] => rfl
  | p :: rest => by simp [objInsert_any_fst k rest]

/-- Key sequence of spreading a raw entry list: first-occurrence insertion
of each raw key in order. -/
theorem objInsertAll_map_fst :
    ∀ (l o : List (String × String)),
      (objInsertAll o l).map Prod.fst =
        (l.map Prod.fst).foldl
          (fun acc x => if acc.any (fun y => y == x) then acc else acc ++ [x])
          (o.map Prod.fst)
  | [], _ => rfl
  | kv :: rest, o => by
    simp only [objInsertAll, List.foldl_cons, List.map_cons]
    have ih := objInsertAll_map_fst rest (objInsert o kv)
    simp only [objInsertAll] at ih
    rw [ih, objInsert_map_fst, objInsert_any_fst]

/-- The key sequence of `allDeps` is the first-occurrence deduplication of
the three groups' raw key sequences, in spread order. -/
theorem allDepsOf_map_fst (pj : PackageJson) :
    (allDepsOf pj).map Prod.fst =
      dedupFirstKeys (pj.dependencies.map Prod.fst
        ++ pj.devDependencies.map Prod.fst
        ++ pj.optionalDependencies.map Prod.fst) := by
  simp only [allDepsOf, dedupFirstKeys]
  rw [objInsertAll_map_fst, objInsertAll_map_fst, objInsertAll_map_fst]
  simp [List.foldl_append]

/-- First-occurrence key insertion keeps the accumulator duplicate-free. -/
theorem dedupFold_nodup :
    ∀ (ks acc : List String), acc.Nodup →
      (ks.foldl (fun acc x => if acc.any (fun y => y == x) then acc
        else acc ++ [x]) acc).Nodup
  | [], _, h => h
  | k :: rest, acc, h => by
    simp only [List.foldl_cons]
    by_cases hk : acc.any (fun y => y == k) = true
    · rw [if_pos hk]
      exact dedupFold_nodup rest acc h
    · rw [if_neg hk]
      refine dedupFold_nodup rest (acc ++ [k]) ?_
      have hkn : k ∉ acc := by
        intro hmem
        exact hk (List.any_eq_true.mpr ⟨k, hmem, by simp⟩)
      simp [List.nodup_append, h, hkn]

/-- The declared-dependency names are duplicate-free after the spread. -/
theorem allDepsOf_keys_nodup (pj : PackageJson) :
    ((allDepsOf pj).map Prod.fst).Nodup := by
  rw [allDepsOf_map_fst]
  exact dedupFold_nodup _ [] List.nodup_nil

/-- Each manifest record's name is its dependency key. -/
theorem classifyManifestDep_name (θ : Nat) (nv : String × String)
    (a : PackageAnalysis) (h : classifyManifestDep θ nv = some a) :
    a.name = nv.1 := by
  rcases (classifyManifestDep_eq_some θ nv a).mp h with ⟨info, _, _, ha⟩
  rw [ha]

/-- The manifest records' names are a subsequence of the dependency keys. -/
theorem manifest_names_sublist (θ : Nat) :
    ∀ l : List (String × String),
      ((l.filterMap (classifyManifestDep θ)).map
        (fun p => p.name)).Sublist (l.map Prod.fst)
  | [] => List.Sublist.refl _
  | nv :: rest => by
    cases hc : classifyManifestDep θ nv with
    | none =>
      simp only [List.filterMap_cons, hc, List.map_cons]
      exact (manifest_names_sublist θ rest).cons _
    | some a =>
      simp only [List.filterMap_cons, hc, List.map_cons,
        classifyManifestDep_name θ nv a hc]
      exact (manifest_names_sublist θ rest).cons₂ _

/-- Field access: `analyzeProject`'s slow-package list. -/
theorem analyzeProject_slowPackages (pj : PackageJson) (θ : Nat) :
    (analyzeProject pj θ).slowPackages =
      sortByTimeDesc (manifestFold (allDepsOf pj) θ).1 := rfl

/-- Field access: `analyzeProject`'s total package count. -/
theorem analyzeProject_totalPackages (pj : PackageJson) (θ : Nat) :
    (analyzeProject pj θ).totalPackages = (allDepsOf pj).length := rfl

/-- Field access: `analyzeProject`'s estimated total time. -/
theorem analyzeProject_estimatedTotalTime (pj : PackageJson) (θ : Nat) :
    (analyzeProject pj θ).estimatedTotalTime =
      (manifestFold (allDepsOf pj) θ).2 := rfl

/-- Field access: `deepScanMerge`'s slow-package list. -/
theorem deepScanMerge_slowPackages (base : AnalysisResult)
    (nm : List PackageAnalysis) (lf : LockfileAnalysis)
    (nmStats : NodeModulesStats) :
    (deepScanMerge base nm lf nmStats).slowPackages =
      sortByTimeDesc (mergeAll base nm lf.slowPackages).1 := rfl

/-- Field access: `deepScanMerge`'s estimated total time. -/
theorem deepScanMerge_estimatedTotalTime (base : AnalysisResult)
    (nm : List PackageAnalysis) (lf : LockfileAnalysis)
    (nmStats : NodeModulesStats) :
    (deepScanMerge base nm lf nmStats).estimatedTotalTime =
      (mergeAll base nm lf.slowPackages).2 := rfl

/-- Field access: `deepScanMerge`'s total package count. -/
theorem deepScanMerge_totalPackages (base : AnalysisResult)
    (nm : List PackageAnalysis) (lf : LockfileAnalysis)
    (nmStats : NodeModulesStats) :
    (deepScanMerge base nm lf nmStats).totalPackages =
      max base.totalPackages (max lf.totalDependencies
        (if 0 < nmStats.totalSize then nmStats.largestPackages.length
         else 0)) := rfl

/-- Pipeline unfolding: a plain heuristic run. -/
theorem runAnalysis_none_none (pj : PackageJson) (θ : Nat) :
    runAnalysis pj θ none none = analyzeProject pj θ := rfl

/-- Pipeline unfolding: a deep-scan run without measurement. -/
theorem runAnalysis_deep_none (pj : PackageJson) (θ : Nat) (d : DeepInput) :
    runAnalysis pj θ (some d) none =
      deepScanMerge (analyzeProject pj θ)
        (analyzeNodeModules d.nmPkgs θ) d.lockfile
        (getNodeModulesStats d.nmPkgs) := rfl

/-- Pipeline unfolding: the measurement phase refines the prior result when
the slow-package list is non-empty, and is skipped otherwise. -/
theorem runAnalysis_measure (pj : PackageJson) (θ : Nat)
    (deep : Option DeepInput) (ms : List MeasurementResult) :
    runAnalysis pj θ deep (some ms) =
      if 0 < (runAnalysis pj θ deep none).slowPackages.length then
        measurementRefine (runAnalysis pj θ deep none) ms
      else runAnalysis pj θ deep none := by
  cases deep <;> rfl

/-- On a list of records with pairwise distinct names, the name of a member
occurs exactly once. -/
theorem countP_name_eq_one_of_nodup (l : List PackageAnalysis)
    (hnd : (l.map (fun p => p.name)).Nodup) (r : PackageAnalysis)
    (hr : r ∈ l) :
    l.countP (fun p => p.name == r.name) = 1 := by
  have h1 := List.countP_map (fun s => s == r.name)
    (fun p : PackageAnalysis => p.name) l
  simp only [Function.comp_def] at h1
  rw [← h1]
  have hmem : r.name ∈ l.map (fun p => p.name) :=
    List.mem_map.mpr ⟨r, hr, rfl⟩
  have hcount := List.count_eq_one_of_mem hnd hmem
  simpa [List.count_eq_countP] using hcount

/-- `sortByTimeDesc` permutes its input. -/
theorem sortByTimeDesc_perm (l : List PackageAnalysis) :
    (sortByTimeDesc l).Perm l :=
  stableSort_perm timeBefore l

/-- Field access: `measurementRefine`'s slow-package list. -/
theorem measurementRefine_slowPackages (base : AnalysisResult)
    (ms : List MeasurementResult) :
    (measurementRefine base ms).slowPackages =
      ms.foldl (fun l m => overwriteFirst m l) base.slowPackages := rfl

/-- Field access: `measurementRefine` recomputes the total from its own
final list. -/
theorem measurementRefine_estimatedTotalTime (base : AnalysisResult)
    (ms : List MeasurementResult) :
    (measurementRefine base ms).estimatedTotalTime =
      ((measurementRefine base ms).slowPackages).foldl
        (fun sum p => sum + p.estimatedTime) 0 := rfl

/-- C10: for every yarn.lock content and threshold, the yarn analyzer's
`packagesWithInstallScripts` is empty — install-script detection is never
populated from yarn.lock. -/
theorem c10_yarn_install_scripts_empty (content : String) (θ : Nat) :
    (analyzeYarnLockfile content θ).packagesWithInstallScripts = [] := rfl

/-- C5: in every run — heuristic, deep-scan, measured or any combination —
the returned `estimatedTotalTime` equals the exact sum of `estimatedTime`
over the returned `slowPackages`. -/
theorem c5_estimatedTotalTime_eq_sum (pj : PackageJson) (θ : Nat)
    (deep : Option DeepInput) (measure : Option (List MeasurementResult)) :
    (runAnalysis pj θ deep measure).estimatedTotalTime =
      ((runAnalysis pj θ deep measure).slowPackages.map
        (fun p => p.estimatedTime)).sum := by
  have hman : (analyzeProject pj θ).estimatedTotalTime =
      ((analyzeProject pj θ).slowPackages.map
        (fun p => p.estimatedTime)).sum := by
    rw [analyzeProject_estimatedTotalTime, analyzeProject_slowPackages,
      ((sortByTimeDesc_perm _).map (fun p => p.estimatedTime)).sum_eq,
      manifestFold_eq]
  have hbase : ∀ dp : Option DeepInput,
      (runAnalysis pj θ dp none).estimatedTotalTime =
        ((runAnalysis pj θ dp none).slowPackages.map
          (fun p => p.estimatedTime)).sum := by
    intro dp
    cases dp with
    | none => exact hman
    | some d =>
      rw [runAnalysis_deep_none, deepScanMerge_estimatedTotalTime,
        deepScanMerge_slowPackages,
        ((sortByTimeDesc_perm _).map (fun p => p.estimatedTime)).sum_eq,
        mergeAll_eq]
      simp only [List.map_append, List.sum_append]
      rw [hman] at *
  cases measure with
  | none => exact hbase deep
  | some ms =>
    rw [runAnalysis_measure]
    by_cases h : 0 < (runAnalysis pj θ deep none).slowPackages.length
    · rw [if_pos h, measurementRefine_estimatedTotalTime, foldl_add_time,
        Nat.zero_add]
    · rw [if_neg h]
      exact hbase deep

/-- C4 (amended): in heuristic and deep-scan runs (no measurement phase) the
returned `slowPackages` is sorted non-strictly descending by
`estimatedTime`, and entries of any equal time keep their pre-sort (merge)
relative order; a measurement run keeps the pre-measurement order instead
and need not be sorted by the updated times. -/
theorem c4_sorted_stable_without_measure (pj : PackageJson) (θ : Nat)
    (deep : Option DeepInput) :
    List.Chain' (fun a b => b.estimatedTime ≤ a.estimatedTime)
      ((runAnalysis pj θ deep none).slowPackages) ∧
    ∀ t : Nat,
      ((runAnalysis pj θ deep none).slowPackages.filter
        (fun p => p.estimatedTime == t)) =
      ((mergedSlowUnsorted pj θ deep).filter
        (fun p => p.estimatedTime == t)) := by
  have hslow : (runAnalysis pj θ deep none).slowPackages =
      sortByTimeDesc (mergedSlowUnsorted pj θ deep) := by
    cases deep with
    | none => rfl
    | some d => rfl
  constructor
  · rw [hslow]
    have hchain := chain'_stableSort timeBefore timeBefore_asym
      (mergedSlowUnsorted pj θ deep)
    exact hchain.imp (fun a b h => by
      simpa [timeBefore, Nat.not_lt] using h)
  · intro t
    rw [hslow]
    exact filter_time_stableSort t _

/-- The two-dependency manifest used to exhibit the unsorted measured run. -/
def pjTwoBrowsers : PackageJson :=
  { dependencies := [("puppeteer", "^20.0.0"), ("playwright", "^1.0.0")],
    devDependencies := [],
    optionalDependencies := [] }

/-- A fast successful measurement of puppeteer. -/
def puppeteerMeasurement : MeasurementResult :=
  { name := "puppeteer", version := "20.0.0", installTime := 1, size := 0,
    success := true, error := none }

/-- C4 is false for measurement runs: measuring puppeteer (heuristic 45s) at
1s leaves the list ordered [1s, 30s], not descending — the code never
re-sorts after overwriting measured times. -/
theorem c4_counterexample_measure_unsorted :
    ¬ List.Chain' (fun a b => b.estimatedTime ≤ a.estimatedTime)
      ((runAnalysis pjTwoBrowsers 5 none
        (some [puppeteerMeasurement])).slowPackages) := by
  intro hchain
  have hmap : ((runAnalysis pjTwoBrowsers 5 none
      (some [puppeteerMeasurement])).slowPackages.map
      (fun p => p.estimatedTime)) = [1, 30] := by decide
  have hchain2 : List.Chain' (fun x y : Nat => y ≤ x) [1, 30] := by
    rw [← hmap]
    exact List.chain'_map_of_chain'
      (fun p : PackageAnalysis => p.estimatedTime) (fun a b h => h) hchain
  simp [List.chain'_cons] at hchain2

/-- Eleven installed packages of one byte each, none slow. -/
def elevenPackages : List NodeModulesPackage :=
  (List.range 11).map (fun i =>
    { name := "pkg-" ++ toString i, version := "1.0.0", size := 1,
      hasPostinstall := false, hasNodeGyp := false })

/-- C2 is false as stated: with 11 installed packages and no other evidence
the code reports `totalPackages = 10` (the capped largest-packages list
length), not the installed-tree package count 11. -/
theorem c2_counterexample_totalPackages :
    ((runAnalysis ⟨[], [], []⟩ 5
        (some ⟨elevenPackages, noLockfileAnalysis⟩) none).totalPackages = 10) ∧
    elevenPackages.length = 11 ∧
    (analyzeProject ⟨[], [], []⟩ 5).totalPackages = 0 ∧
    noLockfileAnalysis.totalDependencies = 0 ∧
    (runAnalysis ⟨[], [], []⟩ 5
        (some ⟨elevenPackages, noLockfileAnalysis⟩) none).totalPackages ≠
      max (analyzeProject ⟨[], [], []⟩ 5).totalPackages
        (max noLockfileAnalysis.totalDependencies elevenPackages.length) := by
  decide

/-- C2 (amended): in a deep-scan run `totalPackages` is the maximum of the
manifest-declared count, the lockfile-resolved count, and — only when the
sampled installed-tree size is positive — the length of the reported
largest-packages list, i.e. `min 10 (installed count)`; otherwise zero for
the third component. -/
theorem c2_amended_totalPackages (pj : PackageJson) (θ : Nat) (d : DeepInput) :
    (runAnalysis pj θ (some d) none).totalPackages =
      max (analyzeProject pj θ).totalPackages
        (max d.lockfile.totalDependencies
          (if 0 < (getNodeModulesStats d.nmPkgs).totalSize then
            min 10 d.nmPkgs.length else 0)) := by
  rw [runAnalysis_deep_none, deepScanMerge_totalPackages]
  congr 2
  by_cases h : 0 < (getNodeModulesStats d.nmPkgs).totalSize
  · rw [if_pos h, if_pos h]
    show (((stableSort sizeBefore d.nmPkgs).take 10).map
      (fun pkg => (pkg.name, pkg.size))).length = min 10 d.nmPkgs.length
    rw [List.length_map, List.length_take,
      (stableSort_perm sizeBefore d.nmPkgs).length_eq]
  · rw [if_neg h, if_neg h]

/-- An installed sharp directory, as the scanner reports it. -/
def sharpInstalled : NodeModulesPackage :=
  { name := "sharp", version := "0.33.5", size := 100,
    hasPostinstall := false, hasNodeGyp := false }

/-- C1 fails on the code: a package (sharp) installed in `node_modules` and
resolved in the lockfile but not declared in the manifest is appended twice
by the deep-scan merge — `existingNames` is the snapshot of the base set's
names and is never extended while appending, so the returned `slowPackages`
carries two entries named sharp. -/
theorem c1_counterexample_duplicate_names :
    ((runAnalysis ⟨[], [], []⟩ 5
      (some ⟨[sharpInstalled], analyzeYarnLockfile "sharp@^0.33.0:" 5⟩)
      none).slowPackages.map (fun p => p.name)) = ["sharp", "sharp"] ∧
    ¬ ((runAnalysis ⟨[], [], []⟩ 5
      (some ⟨[sharpInstalled], analyzeYarnLockfile "sharp@^0.33.0:" 5⟩)
      none).slowPackages.map (fun p => p.name)).Nodup := by
  have hnames : ((runAnalysis ⟨[], [], []⟩ 5
      (some ⟨[sharpInstalled], analyzeYarnLockfile "sharp@^0.33.0:" 5⟩)
      none).slowPackages.map (fun p => p.name)) = ["sharp", "sharp"] := by
    decide
  refine ⟨hnames, ?_⟩
  rw [hnames]
  decide

/-- C8: a name declared in the manifest yields a slow-package record exactly
when the knowledge base has a matching entry whose estimate meets the
threshold (inclusive); and the spec scenario: a manifest declaring only
puppeteer (45s) at threshold 50 yields an empty `slowPackages`. -/
theorem c8_manifest_threshold (pj : PackageJson) (θ : Nat) (n : String)
    (hdecl : n ∈ (allDepsOf pj).map Prod.fst) :
    ((∃ r ∈ (analyzeProject pj θ).slowPackages, r.name = n) ↔
      (∃ info, findSlowPackage n = some info ∧ θ ≤ info.estimatedTime)) ∧
    (analyzeProject ⟨[("puppeteer", "^20.0.0")], [], []⟩ 50).slowPackages
      = [] := by
  constructor
  · rw [analyzeProject_slowPackages]
    constructor
    · rintro ⟨r, hr, hname⟩
      have hr' : r ∈ (manifestFold (allDepsOf pj) θ).1 :=
        (sortByTimeDesc_perm _).mem_iff.mp hr
      rw [manifestFold_eq] at hr'
      rcases List.mem_filterMap.mp hr' with ⟨nv, _, hc⟩
      rcases (classifyManifestDep_eq_some θ nv r).mp hc with
        ⟨info, hfind, hθ, hrec⟩
      refine ⟨info, ?_, hθ⟩
      have : n = nv.1 := by rw [← hname, hrec]
      rw [this]
      exact hfind
    · rintro ⟨info, hfind, hθ⟩
      rcases List.mem_map.mp hdecl with ⟨nv, hnv, hfst⟩
      have hc : classifyManifestDep θ nv = some
          { name := nv.1, version := some nv.2, isSlowPackage := true,
            estimatedTime := info.estimatedTime, reason := some info.reason,
            alternative := info.alternative, note := info.note,
            hasPostinstall := none } :=
        (classifyManifestDep_eq_some θ nv _).mpr
          ⟨info, by rw [hfst]; exact hfind, hθ, rfl⟩
      have hmem : ({ name := nv.1, version := some nv.2,
                     isSlowPackage := true,
                     estimatedTime := info.estimatedTime,
                     reason := some info.reason,
                     alternative := info.alternative, note := info.note,
                     hasPostinstall := none } : PackageAnalysis) ∈
            sortByTimeDesc (manifestFold (allDepsOf pj) θ).1 := by
        apply (sortByTimeDesc_perm _).mem_iff.mpr
        rw [manifestFold_eq]
        exact List.mem_filterMap.mpr ⟨nv, hnv, hc⟩
      exact ⟨_, hmem, hfst⟩
  · decide

/-- Witness for C8: puppeteer declared at threshold 5 — the equivalence
holds (both sides true) and the threshold-50 scenario list is empty. -/
theorem c8_manifest_threshold_witness :
    ("puppeteer" ∈
      (allDepsOf ⟨[("puppeteer", "^20.0.0")], [], []⟩).map Prod.fst) ∧
    (((∃ r ∈ (analyzeProject ⟨[("puppeteer", "^20.0.0")], [], []⟩
        5).slowPackages, r.name = "puppeteer") ↔
      (∃ info, findSlowPackage "puppeteer" = some info ∧
        5 ≤ info.estimatedTime)) ∧
    (analyzeProject ⟨[("puppeteer", "^20.0.0")], [], []⟩ 50).slowPackages
      = []) :=
  ⟨by decide, c8_manifest_threshold _ 5 "puppeteer" (by decide)⟩

/-- The knowledge-base entry for sharp. -/
def sharpInfo : SlowPackageInfo :=
  { name := "sharp", reason := .nativeCompilation, estimatedTime := 12,
    alternative := some "jimp",
    note := some "Requires libvips compilation. jimp is pure JS but slower at runtime." }

/-- C9: for a name declared in several dependency groups, the version on its
record follows the object-spread precedence — optionalDependencies over
devDependencies over dependencies, the last raw entry winning within a
group — while the name counts only once toward `totalPackages` (which is
the length of the first-occurrence deduplicated key list). -/
theorem c9_version_precedence (pj : PackageJson) (θ : Nat) (n v : String)
    (info : SlowPackageInfo)
    (hkb : findSlowPackage n = some info) (hθ : θ ≤ info.estimatedTime)
    (hv : objLookup (allDepsOf pj) n = some v) :
    ({ name := n, version := some v, isSlowPackage := true,
       estimatedTime := info.estimatedTime, reason := some info.reason,
       alternative := info.alternative, note := info.note,
       hasPostinstall := none } : PackageAnalysis) ∈
        (analyzeProject pj θ).slowPackages ∧
    objLookup (allDepsOf pj) n =
      (match lookupLastVal pj.optionalDependencies n with
       | some w => some w
       | none =>
         match lookupLastVal pj.devDependencies n with
         | some w => some w
         | none => lookupLastVal pj.dependencies n) ∧
    (analyzeProject pj θ).totalPackages =
      (dedupFirstKeys (pj.dependencies.map Prod.fst
        ++ pj.devDependencies.map Prod.fst
        ++ pj.optionalDependencies.map Prod.fst)).length := by
  refine ⟨?_, allDepsOf_lookup pj n, ?_⟩
  · rw [analyzeProject_slowPackages]
    apply (sortByTimeDesc_perm _).mem_iff.mpr
    rw [manifestFold_eq]
    refine List.mem_filterMap.mpr ⟨(n, v), objLookup_mem _ n v hv, ?_⟩
    exact (classifyManifestDep_eq_some θ (n, v) _).mpr ⟨info, hkb, hθ, rfl⟩
  · rw [analyzeProject_totalPackages, ← allDepsOf_map_fst, List.length_map]

/-- Witness for C9: sharp declared in both `dependencies` and
`devDependencies` — the recorded version is the `devDependencies` one. -/
theorem c9_version_precedence_witness :
    ({ name := "sharp", version := some "^0.2.0", isSlowPackage := true,
       estimatedTime := 12, reason := some .nativeCompilation,
       alternative := some "jimp",
       note := some "Requires libvips compilation. jimp is pure JS but slower at runtime.",
       hasPostinstall := none } : PackageAnalysis) ∈
      (analyzeProject ⟨[("sharp", "^0.1.0")], [("sharp", "^0.2.0")], []⟩
        5).slowPackages :=
  (c9_version_precedence _ 5 "sharp" "^0.2.0" sharpInfo (by decide)
    (by decide) (by decide)).1

/-- Unfolding: the node-modules analyzer is the sorted classification list. -/
theorem analyzeNodeModules_eq (pkgs : List NodeModulesPackage) (θ : Nat) :
    analyzeNodeModules pkgs θ =
      sortByTimeDesc (pkgs.filterMap (classifyNodeModulesPackage θ)) := rfl

/-- The dynamic classification keeps the scanned package's name. -/
theorem classifyNodeModulesDynamic_name (pkg : NodeModulesPackage)
    (r : PackageAnalysis)
    (h : classifyNodeModulesPackage.classifyNodeModulesDynamic pkg = some r) :
    r.name = pkg.name := by
  unfold classifyNodeModulesPackage.classifyNodeModulesDynamic at h
  by_cases hg : pkg.hasNodeGyp = true
  · rw [if_pos hg] at h
    cases h
    rfl
  · rw [if_neg hg] at h
    by_cases hp : (pkg.hasPostinstall && decide (10 * 1024 * 1024 < pkg.size))
        = true
    · rw [if_pos hp] at h
      cases h
      rfl
    · rw [if_neg hp] at h
      cases h

/-- Any classification keeps the scanned package's name. -/
theorem classifyNodeModulesPackage_name (θ : Nat) (pkg : NodeModulesPackage)
    (r : PackageAnalysis) (h : classifyNodeModulesPackage θ pkg = some r) :
    r.name = pkg.name := by
  unfold classifyNodeModulesPackage at h
  cases hf : findSlowPackage pkg.name with
  | none =>
    simp only [hf] at h
    exact classifyNodeModulesDynamic_name pkg r h
  | some info =>
    simp only [hf] at h
    by_cases hθ : θ ≤ info.estimatedTime
    · rw [if_pos hθ] at h
      cases h
      rfl
    · rw [if_neg hθ] at h
      exact classifyNodeModulesDynamic_name pkg r h

/-- Each scanned directory contributes at most one classified record with
its name. -/
theorem countP_filterMap_name_le (θ : Nat) (n : String) :
    ∀ pkgs : List NodeModulesPackage,
      ((pkgs.filterMap (classifyNodeModulesPackage θ)).countP
        (fun p => p.name == n)) ≤
      pkgs.countP (fun q => q.name == n)
  | [] => Nat.le_refl 0
  | q :: rest => by
    cases hc : classifyNodeModulesPackage θ q with
    | none =>
      simp only [List.filterMap_cons, hc, List.countP_cons]
      exact Nat.le_trans (countP_filterMap_name_le θ n rest)
        (Nat.le_add_right _ _)
    | some r =>
      simp only [List.filterMap_cons, hc, List.countP_cons,
        classifyNodeModulesPackage_name θ q r hc]
      exact Nat.add_le_add (countP_filterMap_name_le θ n rest)
        (Nat.le_refl _)

/-- C6: the installed-tree classification applies in fixed priority with the
first match winning: (1) a knowledge-base hit at or above threshold keeps
the knowledge-base record; (2) otherwise a native-build marker yields the
fixed 10-second native-compilation record; (3) otherwise an install script
together with a size strictly above 10 MiB yields ceil(size / 5 MiB)
seconds with reason postinstall; and no scanned package is counted twice
(at most one output record per scanned directory of a name). -/
theorem c6_node_modules_classification (θ : Nat)
    (pkgs : List NodeModulesPackage) (pkg : NodeModulesPackage)
    (hmem : pkg ∈ pkgs) :
    (∀ info, findSlowPackage pkg.name = some info → θ ≤ info.estimatedTime →
      ({ name := pkg.name, version := some pkg.version, isSlowPackage := true,
         estimatedTime := info.estimatedTime, reason := some info.reason,
         alternative := info.alternative, note := info.note,
         hasPostinstall := some pkg.hasPostinstall } : PackageAnalysis) ∈
        analyzeNodeModules pkgs θ) ∧
    ((match findSlowPackage pkg.name with
      | some info => decide (info.estimatedTime < θ)
      | none => true) = true →
     pkg.hasNodeGyp = true →
      ({ name := pkg.name, version := some pkg.version, isSlowPackage := true,
         estimatedTime := 10, reason := some .nativeCompilation,
         alternative := none,
         note := some "Contains native bindings (detected binding.gyp or node-gyp dependency)",
         hasPostinstall := some pkg.hasPostinstall } : PackageAnalysis) ∈
        analyzeNodeModules pkgs θ) ∧
    ((match findSlowPackage pkg.name with
      | some info => decide (info.estimatedTime < θ)
      | none => true) = true →
     pkg.hasNodeGyp = false → pkg.hasPostinstall = true →
     10 * 1024 * 1024 < pkg.size →
      ({ name := pkg.name, version := some pkg.version, isSlowPackage := true,
         estimatedTime := (pkg.size + 5 * 1024 * 1024 - 1) / (5 * 1024 * 1024),
         reason := some .postinstall, alternative := none,
         note := some "Has postinstall script and large package size",
         hasPostinstall := some true } : PackageAnalysis) ∈
        analyzeNodeModules pkgs θ) ∧
    ((analyzeNodeModules pkgs θ).countP (fun p => p.name == pkg.name) ≤
      pkgs.countP (fun p => p.name == pkg.name)) := by
  refine ⟨?_, ?_, ?_, ?_⟩
  · intro info hfind hθ
    rw [analyzeNodeModules_eq]
    apply (sortByTimeDesc_perm _).mem_iff.mpr
    refine List.mem_filterMap.mpr ⟨pkg, hmem, ?_⟩
    simp [classifyNodeModulesPackage, hfind, hθ]
  · intro hbelow hg
    rw [analyzeNodeModules_eq]
    apply (sortByTimeDesc_perm _).mem_iff.mpr
    refine List.mem_filterMap.mpr ⟨pkg, hmem, ?_⟩
    cases hf : findSlowPackage pkg.name with
    | none =>
      simp [classifyNodeModulesPackage,
        classifyNodeModulesPackage.classifyNodeModulesDynamic, hf, hg]
    | some info =>
      rw [hf] at hbelow
      have hlt : info.estimatedTime < θ := by simpa using hbelow
      simp [classifyNodeModulesPackage,
        classifyNodeModulesPackage.classifyNodeModulesDynamic, hf,
        Nat.not_le.mpr hlt, hg]
  · intro hbelow hg hp hsize
    rw [analyzeNodeModules_eq]
    apply (sortByTimeDesc_perm _).mem_iff.mpr
    refine List.mem_filterMap.mpr ⟨pkg, hmem, ?_⟩
    cases hf : findSlowPackage pkg.name with
    | none =>
      simp [classifyNodeModulesPackage,
        classifyNodeModulesPackage.classifyNodeModulesDynamic, hf, hg, hp,
        hsize]
    | some info =>
      rw [hf] at hbelow
      have hlt : info.estimatedTime < θ := by simpa using hbelow
      simp [classifyNodeModulesPackage,
        classifyNodeModulesPackage.classifyNodeModulesDynamic, hf,
        Nat.not_le.mpr hlt, hg, hp, hsize]
  · rw [analyzeNodeModules_eq,
      (sortByTimeDesc_perm _).countP_eq (fun p => p.name == pkg.name)]
    exact countP_filterMap_name_le θ pkg.name pkgs

/-- An installed package with a native-build marker and no knowledge-base
entry. -/
def nativePkg : NodeModulesPackage :=
  { name := "my-native-lib", version := "1.0.0", size := 0,
    hasPostinstall := false, hasNodeGyp := true }

/-- Witness for C6: the marker-only package is classified as the fixed
10-second native-compilation record and counted once. -/
theorem c6_node_modules_classification_witness :
    (({ name := "my-native-lib", version := some "1.0.0",
        isSlowPackage := true, estimatedTime := 10,
        reason := some .nativeCompilation, alternative := none,
        note := some "Contains native bindings (detected binding.gyp or node-gyp dependency)",
        hasPostinstall := some false } : PackageAnalysis) ∈
      analyzeNodeModules [nativePkg] 5) ∧
    ((analyzeNodeModules [nativePkg] 5).countP
      (fun p => p.name == "my-native-lib") ≤
      [nativePkg].countP (fun p => p.name == "my-native-lib")) := by
  have h := c6_node_modules_classification 5 [nativePkg] nativePkg (by decide)
  exact ⟨h.2.1 (by decide) (by decide), h.2.2.2⟩

/-- Unfolding: the suggestion ranker is the sorted per-package collection. -/
theorem generateSuggestions_eq (slowPackages : List PackageAnalysis) :
    generateSuggestions slowPackages =
      stableSort suggBefore (slowPackages.filterMap suggestFor) := rfl

/-- A suggestion carries the name of the package it was derived from. -/
theorem suggestFor_name (pkg : PackageAnalysis) (s : Suggestion)
    (h : suggestFor pkg = some s) : s.packageName = pkg.name := by
  unfold suggestFor at h
  cases halt : pkg.alternative with
  | some alt =>
    simp only [halt, Option.some.injEq] at h
    rw [← h]
  | none =>
    simp only [halt] at h
    cases hnote : pkg.note with
    | some note =>
      simp only [hnote, Option.some.injEq] at h
      rw [← h]
    | none =>
      simp only [hnote] at h
      cases h

/-- C7: a suggestion is emitted for an aggregated slow package iff it has an
alternative or a note — with an alternative, a `replace` suggestion whose
savings equal the package's full estimated time; with only a note, an
`optimize` suggestion whose savings are `floor(estimatedTime * 0.5)`
(= `estimatedTime / 2` on naturals); with neither, no suggestion carries
the package's name. -/
theorem c7_suggestions (pkgs : List PackageAnalysis) (pkg : PackageAnalysis)
    (hmem : pkg ∈ pkgs)
    (huniq : pkgs.countP (fun p => p.name == pkg.name) = 1) :
    (∀ alt, pkg.alternative = some alt →
      ({ type := .replace, packageName := pkg.name,
         currentTime := pkg.estimatedTime,
         suggestion := "Replace " ++ pkg.name ++ " → " ++ alt,
         potentialSavings := pkg.estimatedTime,
         priority := getPriority pkg.estimatedTime } : Suggestion) ∈
        generateSuggestions pkgs) ∧
    (pkg.alternative = none → ∀ note, pkg.note = some note →
      ({ type := .optimize, packageName := pkg.name,
         currentTime := pkg.estimatedTime,
         suggestion := note,
         potentialSavings := pkg.estimatedTime / 2,
         priority := getPriority pkg.estimatedTime } : Suggestion) ∈
        generateSuggestions pkgs) ∧
    (pkg.alternative = none → pkg.note = none →
      ∀ s ∈ generateSuggestions pkgs, s.packageName ≠ pkg.name) := by
  refine ⟨?_, ?_, ?_⟩
  · intro alt halt
    rw [generateSuggestions_eq]
    apply (stableSort_perm suggBefore _).mem_iff.mpr
    refine List.mem_filterMap.mpr ⟨pkg, hmem, ?_⟩
    simp [suggestFor, halt]
  · intro halt note hnote
    rw [generateSuggestions_eq]
    apply (stableSort_perm suggBefore _).mem_iff.mpr
    refine List.mem_filterMap.mpr ⟨pkg, hmem, ?_⟩
    simp [suggestFor, halt, hnote]
  · intro halt hnote s hs hname
    rw [generateSuggestions_eq] at hs
    have hs' : s ∈ pkgs.filterMap suggestFor :=
      (stableSort_perm suggBefore _).mem_iff.mp hs
    rcases List.mem_filterMap.mp hs' with ⟨q, hq, hsf⟩
    have hqname : q.name = pkg.name := by
      rw [← suggestFor_name q s hsf, hname]
    have hqpkg : q = pkg :=
      countP_eq_one_unique huniq q hq (by simp [hqname]) pkg hmem (by simp)
    rw [hqpkg] at hsf
    rw [suggestFor, halt, hnote] at hsf
    cases hsf

/-- A manifest puppeteer record, as `analyzeProject` produces it. -/
def puppeteerRecord : PackageAnalysis :=
  { name := "puppeteer", version := some "^20.0.0", isSlowPackage := true,
    estimatedTime := 45, reason := some .binaryDownload,
    alternative := some "puppeteer-core",
    note := some "Downloads Chromium browser (~150MB). Use puppeteer-core and provide your own browser.",
    hasPostinstall := none }

/-- Witness for C7: puppeteer has an alternative, so its `replace`
suggestion with full 45-second savings is emitted. -/
theorem c7_suggestions_witness :
    ({ type := .replace, packageName := "puppeteer",
       currentTime := 45,
       suggestion := "Replace puppeteer → puppeteer-core",
       potentialSavings := 45,
       priority := .high } : Suggestion) ∈
      generateSuggestions [puppeteerRecord] := by
  have h := (c7_suggestions [puppeteerRecord] puppeteerRecord (by decide)
    (by decide)).1 "puppeteer-core" (by decide)
  simpa [puppeteerRecord, getPriority] using h

/-- The manifest analyzer's slow-package names are pairwise distinct. -/
theorem analyzeProject_names_nodup (pj : PackageJson) (θ : Nat) :
    ((analyzeProject pj θ).slowPackages.map (fun p => p.name)).Nodup := by
  rw [analyzeProject_slowPackages]
  have h1 : (((manifestFold (allDepsOf pj) θ).1).map
      (fun p => p.name)).Nodup := by
    rw [manifestFold_eq]
    exact (manifest_names_sublist θ (allDepsOf pj)).nodup
      (allDepsOf_keys_nodup pj)
  exact (((sortByTimeDesc_perm _).map (fun p => p.name)).nodup_iff).mpr h1

/-- C3: a package name present in both the manifest result and deep-scan
evidence (with different estimated times) keeps its manifest-sourced record
unchanged through the merge; a subsequent successful measurement of that
name overwrites exactly its `estimatedTime` and `note` with the measured
values, while a run whose measurements of that name all failed (or timed
out, recorded as failures) leaves the heuristic record unchanged. -/
theorem c3_authority_ordering (pj : PackageJson) (θ : Nat) (d : DeepInput)
    (r : PackageAnalysis)
    (hbase : r ∈ (analyzeProject pj θ).slowPackages)
    (_hdeep : ∃ r', (r' ∈ analyzeNodeModules d.nmPkgs θ ∨
        r' ∈ d.lockfile.slowPackages) ∧ r'.name = r.name ∧
        r'.estimatedTime ≠ r.estimatedTime) :
    r ∈ (runAnalysis pj θ (some d) none).slowPackages ∧
    (∀ (ms : List MeasurementResult) (m : MeasurementResult), m ∈ ms →
      m.name = r.name → m.success = true →
      (∀ m' ∈ ms, m'.name = r.name → m' = m) →
      measuredUpdate m r ∈
        (runAnalysis pj θ (some d) (some ms)).slowPackages) ∧
    (∀ ms : List MeasurementResult,
      (∀ m' ∈ ms, m'.name = r.name → m'.success = false) →
      r ∈ (runAnalysis pj θ (some d) (some ms)).slowPackages) := by
  have hex : r.name ∈ (analyzeProject pj θ).slowPackages.map
      (fun q => q.name) := List.mem_map.mpr ⟨r, hbase, rfl⟩
  have hcountBase : (analyzeProject pj θ).slowPackages.countP
      (fun p => p.name == r.name) = 1 :=
    countP_name_eq_one_of_nodup _ (analyzeProject_names_nodup pj θ) r hbase
  have hM := mergeAll_eq (analyzeProject pj θ)
    (analyzeNodeModules d.nmPkgs θ) d.lockfile.slowPackages
  have hkeep : ∀ l : List PackageAnalysis,
      (l.filter (fun p =>
        !(((analyzeProject pj θ).slowPackages.map (fun q => q.name)).any
          (fun n => n == p.name)))).countP (fun p => p.name == r.name)
        = 0 := by
    intro l
    apply List.countP_eq_zero.mpr
    intro p hp
    have hp' := List.mem_filter.mp hp
    have hnone : (((analyzeProject pj θ).slowPackages.map (fun q => q.name)).any
        (fun n => n == p.name)) = false := by
      have := hp'.2
      simpa using this
    intro hpn
    have hpr : p.name = r.name := by simpa using hpn
    have : (((analyzeProject pj θ).slowPackages.map (fun q => q.name)).any
        (fun n => n == p.name)) = true :=
      List.any_eq_true.mpr ⟨r.name, hex, by simp [hpr]⟩
    rw [this] at hnone
    cases hnone
  have hrS : r ∈ (runAnalysis pj θ (some d) none).slowPackages := by
    rw [runAnalysis_deep_none, deepScanMerge_slowPackages]
    apply (sortByTimeDesc_perm _).mem_iff.mpr
    rw [hM]
    exact List.mem_append_left _ (List.mem_append_left _ hbase)
  have hcountS : ((runAnalysis pj θ (some d) none).slowPackages).countP
      (fun p => p.name == r.name) = 1 := by
    rw [runAnalysis_deep_none, deepScanMerge_slowPackages,
      (sortByTimeDesc_perm _).countP_eq (fun p => p.name == r.name), hM]
    simp only [List.countP_append]
    rw [hcountBase, hkeep, hkeep]
  refine ⟨hrS, ?_, ?_⟩
  · intro ms m hm hmn hms hall
    rw [runAnalysis_measure, if_pos (List.length_pos_of_mem hrS),
      measurementRefine_slowPackages]
    exact refine_apply r.name m ms _ r hrS rfl hcountS hm hmn hms hall
  · intro ms hfail
    rw [runAnalysis_measure, if_pos (List.length_pos_of_mem hrS),
      measurementRefine_slowPackages]
    exact refine_fixed r.name ms _ r hrS rfl hcountS
      (fun m' hm' hmn' hms' => absurd hms'
        (by simp [hfail m' hm' hmn']))

/-- A lockfile-analysis value reporting sharp with a conflicting estimate. -/
def lfWithSharp : LockfileAnalysis :=
  { lockfileType := "npm", lockfileVersion := some 3, totalDependencies := 1,
    packagesWithInstallScripts := [],
    slowPackages := [{ name := "sharp", version := some "0.33.5",
                       isSlowPackage := true, estimatedTime := 99,
                       reason := some .nativeCompilation,
                       alternative := some "jimp",
                       note := none, hasPostinstall := some false }] }

/-- The manifest declaring sharp. -/
def pjSharp : PackageJson :=
  { dependencies := [("sharp", "^0.33.0")], devDependencies := [],
    optionalDependencies := [] }

/-- The manifest-sourced sharp record. -/
def sharpManifestRecord : PackageAnalysis :=
  { name := "sharp", version := some "^0.33.0", isSlowPackage := true,
    estimatedTime := 12, reason := some .nativeCompilation,
    alternative := some "jimp",
    note := some "Requires libvips compilation. jimp is pure JS but slower at runtime.",
    hasPostinstall := none }

/-- A successful 7-second measurement of sharp. -/
def sharpMeasurement : MeasurementResult :=
  { name := "sharp", version := "0.33.5", installTime := 7, size := 12345,
    success := true, error := none }

/-- Witness for C3: sharp declared in the manifest (12s) and reported by
the lockfile evidence at 99s — the merged run keeps the manifest record,
and measuring sharp successfully at 7s overwrites its time and note. -/
theorem c3_authority_ordering_witness :
    sharpManifestRecord ∈
      (runAnalysis pjSharp 5 (some ⟨[], lfWithSharp⟩) none).slowPackages ∧
    measuredUpdate sharpMeasurement sharpManifestRecord ∈
      (runAnalysis pjSharp 5 (some ⟨[], lfWithSharp⟩)
        (some [sharpMeasurement])).slowPackages := by
  have hb : (analyzeProject pjSharp 5).slowPackages = [sharpManifestRecord] := by
    decide
  have h := c3_authority_ordering pjSharp 5 ⟨[], lfWithSharp⟩
    sharpManifestRecord (by rw [hb]; exact List.mem_cons_self _ _)
    ⟨{ name := "sharp", version := some "0.33.5", isSlowPackage := true,
       estimatedTime := 99, reason := some .nativeCompilation,
       alternative := some "jimp", note := none,
       hasPostinstall := some false },
     Or.inr (by simp [lfWithSharp]), by decide, by decide⟩
  refine ⟨h.1, ?_⟩
  exact h.2.1 [sharpMeasurement] sharpMeasurement
    (List.mem_cons_self _ _) rfl rfl
    (fun m' hm' _ => by simpa using hm')
